import Mathlib

/-!
Verification of the row-building and ranking pipeline of the stremio-ai-addon
service (source: index.js).  The JavaScript functions `buildUserVec`, `cosine`,
`tagsToVec`, `rerank`, `fetchCinemetaMeta`-based enrichment (`enrichKeep`),
`traktList` and `buildRows` are embedded shallowly: JS objects become records,
JS numbers become exact rationals (reals where a square root occurs), the
falsy-coalescing operator `x || y` becomes an explicit helper, and the network
effects (fetch outcomes, Cinemeta lookups) become explicit function or
`Except` parameters.
-/

namespace Stremio

/-- JS `a || b` on strings: the empty string is falsy. -/
def orS (a b : String) : String := if a = "" then b else a

/-- JS `s.toLowerCase()`, written over the character list so that concrete
instances evaluate. -/
def jsLower (s : String) : String := String.mk (s.data.map Char.toLower)

/-- JS `a || b` where `a` is a possibly-undefined number (`none`) and `0` is
falsy. -/
def orY (a : Option Int) (b : Option Int) : Option Int :=
  match a with
  | none => b
  | some y => if y = 0 then b else some y

/-- JS `a || b` for a possibly-undefined rational with `0` falsy. -/
def orQ (a : Option ℚ) (b : ℚ) : ℚ :=
  match a with
  | none => b
  | some x => if x = 0 then b else x

/-- The candidate record produced by `traktList` and mutated by enrichment.
Optional JS fields are made explicit: a missing `poster`/`description` is the
empty string, a missing `year` is `none`. -/
structure Item where
  id : String
  title : String
  year : Option Int
  poster : String
  description : String
  genres : List String
  rating : ℚ
  type : String
deriving DecidableEq, Repr

/-! ## User interest vectors (`buildUserVec`, index.js lines 134-144)

A JS object used as a string-keyed map becomes an association list that keeps
insertion order; keys stay unique because updates happen in place. -/

/-- Interest vector: association list from tag to accumulated weight. -/
abbrev Vec := List (String × ℚ)

/-- JS `vec[k] || 0`. -/
def lookupVec : Vec → String → ℚ
  | [], _ => 0
  | p :: ps, k => if p.1 = k then p.2 else lookupVec ps k

/-- JS `vec[k] = (vec[k] || 0) + w`: update in place, or append a new key. -/
def vecAdd : Vec → String → ℚ → Vec
  | [], k, w => [(k, w)]
  | p :: ps, k, w => if p.1 = k then (p.1, p.2 + w) :: ps else p :: vecAdd ps k w

/-- JS `v[k] = x`: overwrite in place, or append a new key. -/
def vecSet : Vec → String → ℚ → Vec
  | [], k, x => [(k, x)]
  | p :: ps, k, x => if p.1 = k then (p.1, x) :: ps else p :: vecSet ps k x

/-- One interaction event as appended by the `/api/events` route. -/
structure Event where
  imdb : String
  type : String
  progress : Option ℚ
  ts : Int
  tags : List String

/-- The literal `weights` object of `buildUserVec`; `none` for keys it does
not carry. -/
def weightsLookup (t : String) : Option ℚ :=
  if t = "complete" then some 3
  else if t = "like" then some (5/2)
  else if t = "start" then some 1
  else if t = "abandon" then some (-(1/2))
  else none

/-- `(weights[e.type] || 0.5) * (1 + (e.progress || 0))`. -/
def eventWeight (e : Event) : ℚ :=
  orQ (weightsLookup e.type) (1/2) * (1 + orQ e.progress 0)

/-- The inner loop of `buildUserVec`: add the event weight to every lowercase
tag of the event. -/
def applyEvent (v : Vec) (e : Event) : Vec :=
  e.tags.foldl (fun v t => vecAdd v (jsLower t) (eventWeight e)) v

/-- `buildUserVec(events)` (index.js lines 134-144). -/
def buildUserVec (events : List Event) : Vec :=
  events.foldl applyEvent []

/-! ## Cosine similarity (`tagsToVec`, `cosine`, index.js lines 145-151) -/

/-- `tagsToVec(tags)`: weight 1 for each lowercase tag. -/
def tagsToVec (tags : List String) : Vec :=
  tags.foldl (fun v t => vecSet v (jsLower t) 1) []

/-- First-occurrence deduplication, the iteration order of a JS `Set`. -/
def dedupStrGo (seen : List String) : List String → List String
  | [] => []
  | k :: ks => if seen.contains k then dedupStrGo seen ks
               else k :: dedupStrGo (k :: seen) ks

/-- `new Set([...Object.keys(a), ...Object.keys(b)])` in iteration order. -/
def keyUnion (a b : Vec) : List String :=
  dedupStrGo [] (a.map Prod.fst ++ b.map Prod.fst)

/-- The single accumulation loop of `cosine`: `(dot, na, nb)`. -/
def cosAcc (a b : Vec) : ℚ × ℚ × ℚ :=
  (keyUnion a b).foldl
    (fun acc k =>
      (acc.1 + lookupVec a k * lookupVec b k,
       acc.2.1 + lookupVec a k * lookupVec a k,
       acc.2.2 + lookupVec b k * lookupVec b k))
    (0, 0, 0)

/-- `cosine(a, b)`: `dot / (Math.sqrt(na) * Math.sqrt(nb) || 1)`.  The JS
`|| 1` replaces a zero (or NaN, impossible here) denominator by 1. -/
noncomputable def cosine (a b : Vec) : ℝ :=
  let t := cosAcc a b
  let den : ℝ := Real.sqrt (t.2.1 : ℝ) * Real.sqrt (t.2.2 : ℝ)
  (t.1 : ℝ) / (if den = 0 then 1 else den)

/-! ## Re-ranking (`rerank`, index.js lines 152-169) -/

/-- JS `x || 0` on a total real (identity except at zero, where it is still
zero; it exists in the source to coerce NaN). -/
noncomputable def orZeroR (x : ℝ) : ℝ := if x = 0 then 0 else x

/-- The per-item score: `rating*0.7 + sim*2.5 + recency*0.3` with
`recency = it.year ? 1 + (it.year - 2015)*0.03 : 1` (a year of 0 is falsy). -/
noncomputable def score (userVec : Vec) (it : Item) : ℝ :=
  let sim := orZeroR (cosine userVec (tagsToVec it.genres))
  let recency : ℝ :=
    match it.year with
    | some y => if y = 0 then 1 else 1 + ((y : ℝ) - 2015) * 0.03
    | none => 1
  (it.rating : ℝ) * 0.7 + sim * 2.5 + recency * 0.3

/-- Stable descending insertion by the stored score, modelling the
ECMAScript-mandated stable `sort((a,b) => b.score - a.score)`. -/
noncomputable def insertDesc (x : Item × ℝ) : List (Item × ℝ) → List (Item × ℝ)
  | [] => [x]
  | y :: ys => if y.2 ≤ x.2 then x :: y :: ys else y :: insertDesc x ys

/-- Stable descending sort by score. -/
noncomputable def sortDesc : List (Item × ℝ) → List (Item × ℝ)
  | [] => []
  | x :: xs => insertDesc x (sortDesc xs)

/-- `(s.it.genres || []).join('|')`. -/
def joinPipe (l : List String) : String := String.intercalate "|" l

/-- First diversification loop: keep the first item of each distinct
genre signature (`seen` is the JS `Set`). -/
def divHead (seen : List String) : List (Item × ℝ) → List Item
  | [] => []
  | p :: ps =>
    if seen.contains (joinPipe p.1.genres) then divHead seen ps
    else p.1 :: divHead (joinPipe p.1.genres :: seen) ps

/-- Second diversification loop: append every scored item not already in
`out` (JS `out.includes`), in score order. -/
def appendMissing (out : List Item) : List (Item × ℝ) → List Item
  | [] => out
  | p :: ps =>
    if out.contains p.1 then appendMissing out ps
    else appendMissing (out ++ [p.1]) ps

/-- `rerank(items, userVec, diversify)` (index.js lines 152-169); the
source defaults `diversify` to `true`. -/
noncomputable def rerank (items : List Item) (userVec : Vec) (diversify : Bool) :
    List Item :=
  let sorted := sortDesc (items.map (fun it => (it, score userVec it)))
  if diversify = false then sorted.map Prod.fst
  else appendMissing (divHead [] sorted) sorted

/-! ## Metadata enrichment (`fetchCinemetaMeta`, `enrichKeep`,
index.js lines 174-188 and 223-246)

The Cinemeta lookup is a network effect; `enrichKeep` is parameterised by an
oracle from (type, imdb id) to the record `fetchCinemetaMeta` would return,
`none` meaning the awaited call threw (non-ok response, malformed payload, or
transport error). -/

/-- The record built by `fetchCinemetaMeta` on success.  Its `id` equals the
requested id and is therefore not repeated here; `genres = none` models a
payload whose `genres` is not an array (the `Array.isArray` check in
`enrichKeep`). -/
structure CMeta where
  name : String
  description : String
  poster : String
  genres : Option (List String)
  year : Option Int
  type : String
deriving DecidableEq, Repr

/-- Lookup oracle: arguments are the type and imdb id passed to
`fetchCinemetaMeta`. -/
abbrev Lookup := String → String → Option CMeta

/-- One iteration of the `enrichKeep` loop: merge the fetched metadata over
the candidate, or keep the candidate unchanged when the lookup throws. -/
def enrichOne (lookup : Lookup) (typeHint : String) (it : Item) : Item :=
  match lookup (orS it.type (orS typeHint "movie")) it.id with
  | none => it
  | some m =>
    { id := it.id
      title := orS m.name it.title
      year := orY m.year it.year
      poster := orS m.poster (orS it.poster "")
      description := orS m.description ""
      genres := match m.genres with | some gs => gs | none => it.genres
      rating := it.rating
      type := orS m.type (orS it.type (orS typeHint "movie")) }

/-- The final filter of `enrichKeep`: keep the first occurrence of each id. -/
def dedupByIdGo (seen : List String) : List Item → List Item
  | [] => []
  | x :: xs =>
    if seen.contains x.id then dedupByIdGo seen xs
    else x :: dedupByIdGo (x.id :: seen) xs

/-- `enrichKeep(items, typeHint)` (index.js lines 223-246): truncate to the
first 200 items, enrich each (keeping it on failure), then deduplicate by
id. -/
def enrichKeep (lookup : Lookup) (items : List Item) (typeHint : String) :
    List Item :=
  dedupByIdGo [] ((items.take 200).map (enrichOne lookup typeHint))

/-! ## Trakt list fetch (`traktList`, index.js lines 191-220) -/

/-- The nested object of a raw Trakt row (`row.movie`, `row.show_`, or the row
itself); `ids.imdb` collapsed to one optional field. -/
structure TObj where
  imdb : Option String
  title : String
  year : Option Int
deriving DecidableEq, Repr

/-- One raw row of the Trakt response. -/
structure RawRow where
  movie : Option TObj
  show_ : Option TObj
  self : TObj
deriving DecidableEq, Repr

/-- The HTTP outcome of the Trakt fetch once it resolved: `ok` status plus the
`r.json()` outcome (`Except.error` models a rejected `json()` or a non-array
payload). -/
structure TraktResp where
  ok : Bool
  jsonBody : Except String (List RawRow)

/-- The test `/^tt\d+/.test(imdb)`: two letters `tt` followed by at least one
digit, with no anchor at the end of the string. -/
def ttTest (s : String) : Bool :=
  match s.data with
  | 't' :: 't' :: c :: _ => c.isDigit
  | _ => false

/-- Full identifier shape: `tt` followed by one or more digits and nothing
else.  This is the reading of the specification sentence on identifier
format; it is stricter than `ttTest`. -/
def ttFull (s : String) : Bool :=
  match s.data with
  | 't' :: 't' :: c :: rest => c.isDigit && rest.all Char.isDigit
  | _ => false

/-- `row.movie || row.show || row`: the nested object a raw row resolves
to. -/
def effObj (row : RawRow) : TObj :=
  match row.movie with
  | some o => o
  | none => match row.show_ with | some o => o | none => row.self

/-- The body of `data.map(row => ...)` in `traktList`: normalise one raw row
to a candidate, or `null` when the imdb id is missing, empty, or fails the
pattern test. -/
def normRow (listType : String) (row : RawRow) : Option Item :=
  match (effObj row).imdb with
  | none => none
  | some imdb =>
    if imdb = "" then none
    else if ttTest imdb = false then none
    else
      some
        { id := imdb
          title := (effObj row).title
          year := (effObj row).year
          poster := ""
          description := ""
          genres := []
          rating := 0
          type :=
            if row.movie.isSome || listType = "movies" then "movie"
            else if row.show_.isSome || listType = "shows" then "series"
            else "movie" }

/-- `traktList` (index.js lines 191-220), with the awaited fetch outcome made
explicit: `Except.error` is a transport failure (the `await fetch` rejecting),
which the source does not catch, so it propagates; a non-ok response yields
`[]` before `r.json()` is ever called. -/
def traktList (listType : String) (fetched : Except String TraktResp) :
    Except String (List Item) :=
  match fetched with
  | .error e => .error e
  | .ok r =>
    if r.ok = false then .ok []
    else
      match r.jsonBody with
      | .error e => .error e
      | .ok rows => .ok (rows.filterMap (normRow listType))

/-! ## Row building (`buildRows`, index.js lines 249-275) -/

/-- A named catalog row. -/
structure Row where
  id : String
  title : String
  items : List Item
deriving DecidableEq, Repr

/-- The quality intersection loop: members of the trending pool whose id also
occurs in the popular pool, in trending order. -/
def interPool (tMovies pMovies : List Item) : List Item :=
  tMovies.filter (fun x => (pMovies.map Item.id).contains x.id)

/-- The fallback: discard intersections of fewer than 30 members. -/
def qualityBase (tMovies pMovies : List Item) : List Item :=
  if (interPool tMovies pMovies).length < 30 then tMovies
  else interPool tMovies pMovies

/-- The pure core of `buildRows` once the three `traktList` promises have
resolved: enrich the four pools and cap each row. -/
def buildRowsPools (lookup : Lookup) (tMovies pMovies tShows : List Item)
    (wantMany : Bool) : List Row :=
  let cap := if wantMany then 200 else 50
  [ { id := "ai-movies", title := "AI Picks (Movies)",
      items := (enrichKeep lookup tMovies "movie").take cap },
    { id := "ai-series", title := "AI Picks (Series)",
      items := (enrichKeep lookup tShows "series").take cap },
    { id := "trending", title := "Trending Now",
      items := (enrichKeep lookup tMovies "movie").take cap },
    { id := "quality", title := "Quality Selections",
      items := (enrichKeep lookup (qualityBase tMovies pMovies) "movie").take cap } ]

/-- `buildRows` (index.js lines 249-275): the `Promise.all` over the three
fetches rejects when any of them rejects, which the `do` propagation models. -/
def buildRows (lookup : Lookup) (ft fp fs : Except String TraktResp)
    (wantMany : Bool) : Except String (List Row) := do
  let tMovies ← traktList "movies" ft
  let pMovies ← traktList "movies" fp
  let tShows ← traktList "shows" fs
  pure (buildRowsPools lookup tMovies pMovies tShows wantMany)

/-! ## TTL cache (index.js line 36)

The cache itself is the `lru-cache` npm package; only its configuration
`new LRU(max := 1000, ttl := 6h)` lives in the repository.  Modelled from the
spec: a bounded key-value store whose entries are kept most-recently-used
first; `get` refreshes recency, `set` inserts at the front and evicts the
least-recently-used (last) entry once the configured maximum is exceeded.
The TTL dimension is orthogonal to the size bound and is not modelled. -/

structure LruCache (V : Type) where
  maxEntries : Nat
  entries : List (String × V)

/-- Modelled from the spec: `cache.get(key)` of the `lru-cache` package —
return the value if present and move its entry to the front. -/
def LruCache.get {V : Type} (c : LruCache V) (k : String) :
    Option V × LruCache V :=
  match c.entries.find? (fun p => p.1 = k) with
  | none => (none, c)
  | some p =>
    (some p.2,
     { c with entries := (k, p.2) :: c.entries.filter (fun q => q.1 ≠ k) })

/-- Modelled from the spec: `cache.set(key, value)` of the `lru-cache`
package — insert at the front (replacing any previous entry for the key) and
drop the least-recently-used entry when past capacity. -/
def LruCache.set {V : Type} (c : LruCache V) (k : String) (v : V) :
    LruCache V :=
  let e := (k, v) :: c.entries.filter (fun q => q.1 ≠ k)
  { c with entries := if c.maxEntries < e.length then e.dropLast else e }

/-- `const cache = new LRU(max := 1000, ttl := 6h)` (index.js line 36). -/
def cacheInit (V : Type) : LruCache V := { maxEntries := 1000, entries := [] }

/-- A cache access, for stating whole-trace invariants. -/
inductive CacheOp (V : Type) where
  | get (k : String)
  | set (k : String) (v : V)

/-- Run a sequence of cache accesses. -/
def runOps {V : Type} (ops : List (CacheOp V)) (c : LruCache V) : LruCache V :=
  ops.foldl
    (fun c op =>
      match op with
      | .get k => (c.get k).2
      | .set k v => c.set k v)
    c

/-! ## Lemmas about interest vectors -/

theorem lookupVec_vecAdd (v : Vec) (k' k : String) (w : ℚ) :
    lookupVec (vecAdd v k' w) k
      = lookupVec v k + (if k' = k then w else 0) := by
  induction v with
  | nil =>
    by_cases h : k' = k
    · simp [vecAdd, lookupVec, h]
    · simp [vecAdd, lookupVec, h]
  | cons p ps ih =>
    by_cases hp : p.1 = k'
    · by_cases hk : p.1 = k
      · have hkk : k' = k := hp ▸ hk
        simp [vecAdd, lookupVec, hp, hk, hkk]
      · have hkk : ¬ k' = k := fun e => hk (hp.trans e)
        simp [vecAdd, lookupVec, hp, hk, hkk]
    · by_cases hk : p.1 = k
      · have hkk : ¬ k' = k := fun e => hp (hk.trans e.symm)
        have hkk2 : ¬ k = k' := fun e => hkk e.symm
        simp [vecAdd, lookupVec, hp, hk, hkk, hkk2]
      · simp [vecAdd, lookupVec, hp, hk, ih]

theorem lookupVec_foldl_tags (tags : List String) (v : Vec) (k : String)
    (w : ℚ) :
    lookupVec (tags.foldl (fun v t => vecAdd v (jsLower t) w) v) k
      = lookupVec v k + (tags.countP (fun t => jsLower t = k) : ℚ) * w := by
  induction tags generalizing v with
  | nil => simp
  | cons t ts ih =>
    simp only [List.foldl_cons, ih, lookupVec_vecAdd, List.countP_cons]
    by_cases h : jsLower t = k
    · simp [h, decide_True]
      ring
    · simp [h]

theorem buildUserVec_snoc (es : List Event) (e : Event) :
    buildUserVec (es ++ [e]) = applyEvent (buildUserVec es) e := by
  simp [buildUserVec, List.foldl_append]

/-- The complete-with-progress example event of the specification. -/
def completeEv : Event :=
  { imdb := "tt1", type := "complete", progress := some (1/2), ts := 0,
    tags := ["Drama"] }

/-- An event of an unrecognised kind carrying no progress. -/
def otherEv : Event :=
  { imdb := "tt2", type := "hover", progress := none, ts := 0,
    tags := ["Mystery"] }

/-- C5: `buildUserVec` adds `base * (1 + progress)` to the accumulator of
each lowercase tag of an event, where base is 3 for complete, 2.5 for like,
1 for start, -0.5 for abandon and 0.5 otherwise; a complete event with
progress 0.5 and tag Drama contributes exactly 4.5 to key drama, and an
unrecognised kind with no progress contributes exactly 0.5. -/
theorem buildUserVec_weighting :
    (∀ (es : List Event) (e : Event) (k : String),
        lookupVec (buildUserVec (es ++ [e])) k
          = lookupVec (buildUserVec es) k
            + (e.tags.countP (fun t => jsLower t = k) : ℚ) * eventWeight e)
    ∧ eventWeight completeEv = 4.5
    ∧ lookupVec (buildUserVec [completeEv]) "drama" = 4.5
    ∧ eventWeight otherEv = 0.5
    ∧ lookupVec (buildUserVec [otherEv]) "mystery" = 0.5 := by
  have hlc : weightsLookup "complete" = some 3 := by simp [weightsLookup]
  have hlo : weightsLookup "hover" = none := by simp [weightsLookup]
  have hwc : eventWeight completeEv = 4.5 := by
    have : completeEv.type = "complete" := rfl
    norm_num [eventWeight, this, hlc, orQ, completeEv]
  have hwo : eventWeight otherEv = 0.5 := by
    have : otherEv.type = "hover" := rfl
    norm_num [eventWeight, this, hlo, orQ, otherEv]
  refine ⟨fun es e k => ?_, hwc, ?_, hwo, ?_⟩
  · rw [buildUserVec_snoc]
    exact lookupVec_foldl_tags e.tags (buildUserVec es) k (eventWeight e)
  · have hD : jsLower "Drama" = "drama" := by decide
    have ht : completeEv.tags = ["Drama"] := rfl
    simp [buildUserVec, applyEvent, ht, hD, hwc, vecAdd, lookupVec]
  · have hM : jsLower "Mystery" = "mystery" := by decide
    have ht : otherEv.tags = ["Mystery"] := rfl
    simp [buildUserVec, applyEvent, ht, hM, hwo, vecAdd, lookupVec]

/-! ## Lemmas about cosine similarity -/

theorem cosAcc_eq_sums (a b : Vec) :
    cosAcc a b
      = (((keyUnion a b).map (fun k => lookupVec a k * lookupVec b k)).sum,
         ((keyUnion a b).map (fun k => lookupVec a k * lookupVec a k)).sum,
         ((keyUnion a b).map (fun k => lookupVec b k * lookupVec b k)).sum) := by
  unfold cosAcc
  generalize keyUnion a b = keys
  suffices h : ∀ (acc : ℚ × ℚ × ℚ),
      keys.foldl
        (fun acc k =>
          (acc.1 + lookupVec a k * lookupVec b k,
           acc.2.1 + lookupVec a k * lookupVec a k,
           acc.2.2 + lookupVec b k * lookupVec b k)) acc
        = (acc.1 + (keys.map (fun k => lookupVec a k * lookupVec b k)).sum,
           acc.2.1 + (keys.map (fun k => lookupVec a k * lookupVec a k)).sum,
           acc.2.2 + (keys.map (fun k => lookupVec b k * lookupVec b k)).sum) by
    rw [h (0, 0, 0)]; simp
  induction keys with
  | nil => intro acc; simp
  | cons k ks ih =>
    intro acc
    simp only [List.foldl_cons, ih, List.map_cons, List.sum_cons]
    refine Prod.ext (by simp; ring) (Prod.ext (by simp; ring) (by simp; ring))

theorem sum_mul_self_eq_zero {l : List ℚ}
    (h : (l.map (fun x => x * x)).sum = 0) : ∀ x ∈ l, x = 0 := by
  induction l with
  | nil => simp
  | cons y ys ih =>
    simp only [List.map_cons, List.sum_cons] at h
    have hrest : 0 ≤ (ys.map (fun x => x * x)).sum :=
      List.sum_nonneg (by
        intro x hx
        obtain ⟨z, _, rfl⟩ := List.mem_map.mp hx
        exact mul_self_nonneg z)
    have hy : y * y = 0 :=
      le_antisymm (by linarith [mul_self_nonneg y]) (mul_self_nonneg y)
    have hzero : (ys.map (fun x => x * x)).sum = 0 := by
      linarith [mul_self_nonneg y]
    intro x hx
    rcases List.mem_cons.mp hx with rfl | hx
    · exact mul_self_eq_zero.mp hy
    · exact ih hzero x hx

/-- C6: `cosine` returns 0 whenever either accumulated squared magnitude is
0; the `|| 1` guard keeps the denominator away from 0 and the numerator is
itself 0, so the result is exactly 0 (not NaN or infinity). -/
theorem cosine_zero_mag (a b : Vec)
    (h : (cosAcc a b).2.1 = 0 ∨ (cosAcc a b).2.2 = 0) :
    cosine a b = 0 := by
  have hsum := cosAcc_eq_sums a b
  have hd : (cosAcc a b).1
      = ((keyUnion a b).map (fun k => lookupVec a k * lookupVec b k)).sum := by
    rw [hsum]
  have hna : (cosAcc a b).2.1
      = ((keyUnion a b).map (fun k => lookupVec a k * lookupVec a k)).sum := by
    rw [hsum]
  have hnb : (cosAcc a b).2.2
      = ((keyUnion a b).map (fun k => lookupVec b k * lookupVec b k)).sum := by
    rw [hsum]
  have hdot : (cosAcc a b).1 = 0 := by
    rw [hd]
    rcases h with h | h
    · have hz := sum_mul_self_eq_zero (l := (keyUnion a b).map (lookupVec a))
        (by rw [List.map_map]; exact hna ▸ h)
      refine List.sum_eq_zero ?_
      intro x hx
      obtain ⟨k, hk, rfl⟩ := List.mem_map.mp hx
      have h0 : lookupVec a k = 0 := hz _ (List.mem_map_of_mem (lookupVec a) hk)
      simp [h0]
    · have hz := sum_mul_self_eq_zero (l := (keyUnion a b).map (lookupVec b))
        (by rw [List.map_map]; exact hnb ▸ h)
      refine List.sum_eq_zero ?_
      intro x hx
      obtain ⟨k, hk, rfl⟩ := List.mem_map.mp hx
      have h0 : lookupVec b k = 0 := hz _ (List.mem_map_of_mem (lookupVec b) hk)
      simp [h0]
  have hc : cosine a b
      = ((cosAcc a b).1 : ℝ)
        / (if Real.sqrt ((cosAcc a b).2.1 : ℝ) * Real.sqrt ((cosAcc a b).2.2 : ℝ) = 0
           then 1
           else Real.sqrt ((cosAcc a b).2.1 : ℝ)
                * Real.sqrt ((cosAcc a b).2.2 : ℝ)) := rfl
  rw [hc, hdot]
  simp

/-- Witness for C6 at a concrete input: the empty vector against a one-tag
vector. -/
theorem cosine_zero_mag_witness :
    (cosAcc [] [("drama", 1)]).2.1 = 0 ∧ cosine [] [("drama", 1)] = 0 := by
  have h : (cosAcc [] [("drama", 1)]).2.1 = 0 := by
    norm_num [cosAcc, keyUnion, dedupStrGo, lookupVec]
  exact ⟨h, cosine_zero_mag [] [("drama", 1)] (Or.inl h)⟩

/-! ## Lemmas about enrichment -/

theorem dedupByIdGo_sublist (l : List Item) (seen : List String) :
    (dedupByIdGo seen l).Sublist l := by
  induction l generalizing seen with
  | nil => simp [dedupByIdGo]
  | cons x xs ih =>
    simp only [dedupByIdGo]
    by_cases h : seen.contains x.id
    · simp only [h, if_pos rfl]
      exact (ih seen).cons x
    · simp only [h]
      simpa using (ih (x.id :: seen)).cons₂ x

theorem dedupByIdGo_eq_self (l : List Item) (seen : List String)
    (hn : (l.map Item.id).Nodup)
    (hs : ∀ x ∈ l, ¬ x.id ∈ seen) :
    dedupByIdGo seen l = l := by
  induction l generalizing seen with
  | nil => rfl
  | cons x xs ih =>
    have hx : seen.contains x.id = false := by
      simpa using hs x (List.mem_cons_self x xs)
    simp only [dedupByIdGo, hx]
    simp only [Bool.false_eq_true, if_false]
    congr 1
    apply ih
    · exact (List.nodup_cons.mp (by simpa using hn)).2
    · intro y hy
      simp only [List.mem_cons]
      rintro (he | he)
      · have : x.id ∈ xs.map Item.id := he ▸ List.mem_map_of_mem Item.id hy
        exact (List.nodup_cons.mp (by simpa using hn)).1 this
      · exact hs y (List.mem_cons_of_mem x hy) he

theorem mem_dedupByIdGo (l1 l2 : List Item) (x : Item) (seen : List String)
    (hseen : ¬ x.id ∈ seen) (hpre : ∀ y ∈ l1, y.id ≠ x.id) :
    x ∈ dedupByIdGo seen (l1 ++ x :: l2) := by
  induction l1 generalizing seen with
  | nil =>
    have hc : ¬ seen.contains x.id = true := by simpa using hseen
    rw [List.nil_append]
    simp only [dedupByIdGo]
    rw [if_neg hc]
    exact List.mem_cons_self _ _
  | cons y l1 ih =>
    rw [List.cons_append]
    simp only [dedupByIdGo]
    by_cases hy : seen.contains y.id = true
    · rw [if_pos hy]
      exact ih seen hseen (fun z hz => hpre z (List.mem_cons_of_mem y hz))
    · rw [if_neg hy]
      refine List.mem_cons_of_mem y (ih (y.id :: seen) ?_ ?_)
      · intro hmem
        rcases List.mem_cons.mp hmem with he | he
        · exact hpre y (List.mem_cons_self y l1) he.symm
        · exact hseen he
      · exact fun z hz => hpre z (List.mem_cons_of_mem y hz)

/-- Both branches of `enrichOne` keep the candidate id (on success the
Cinemeta record answers for the requested id). -/
theorem enrichOne_id (lookup : Lookup) (hint : String) (it : Item) :
    (enrichOne lookup hint it).id = it.id := by
  unfold enrichOne
  cases lookup (orS it.type (orS hint "movie")) it.id <;> rfl

/-- C1 (amended): for input lists of at most 200 candidates, the surviving
output of `enrichKeep` keeps the input relative order; when the enriched
identifiers are pairwise distinct nothing at all is dropped; and a candidate
whose metadata lookup fails passes through unchanged, appearing in the
output (rather than being omitted) provided no candidate before it in the
list shares its identifier — identifiers elsewhere may repeat freely. -/
theorem enrichKeep_order_keep (lookup : Lookup) (items : List Item)
    (hint : String) (hlen : items.length ≤ 200) :
    (enrichKeep lookup items hint).Sublist (items.map (enrichOne lookup hint))
    ∧ (((items.map (enrichOne lookup hint)).map Item.id).Nodup →
        enrichKeep lookup items hint = items.map (enrichOne lookup hint))
    ∧ (∀ it ∈ items, lookup (orS it.type (orS hint "movie")) it.id = none →
        enrichOne lookup hint it = it)
    ∧ (∀ (pre post : List Item) (it : Item), items = pre ++ it :: post →
        lookup (orS it.type (orS hint "movie")) it.id = none →
        (∀ p ∈ pre, p.id ≠ it.id) →
        it ∈ enrichKeep lookup items hint) := by
  have htake : items.take 200 = items := List.take_of_length_le hlen
  have hEq : enrichKeep lookup items hint
      = dedupByIdGo [] (items.map (enrichOne lookup hint)) := by
    simp [enrichKeep, htake]
  have hfail : ∀ it ∈ items,
      lookup (orS it.type (orS hint "movie")) it.id = none →
      enrichOne lookup hint it = it := by
    intro it _ h
    simp [enrichOne, h]
  refine ⟨?_, ?_, hfail, ?_⟩
  · rw [hEq]; exact dedupByIdGo_sublist _ _
  · intro hn
    rw [hEq]
    exact dedupByIdGo_eq_self _ _ hn (by simp)
  · intro pre post it hsplit hnone hpre
    have hmem : it ∈ items := by
      rw [hsplit]
      exact List.mem_append_right pre (List.mem_cons_self it post)
    have hkeep : enrichOne lookup hint it = it := hfail it hmem hnone
    rw [hEq, hsplit, List.map_append, List.map_cons, hkeep]
    apply mem_dedupByIdGo
    · simp
    · intro y hy
      obtain ⟨p, hp, rfl⟩ := List.mem_map.mp hy
      rw [enrichOne_id]
      exact hpre p hp

/-- A lookup oracle that always fails (every Cinemeta call throws). -/
def lkNone : Lookup := fun _ _ => none

/-- A minimal movie candidate as produced by `traktList`. -/
def itemA : Item :=
  { id := "tt1", title := "A", year := none, poster := "", description := "",
    genres := [], rating := 0, type := "movie" }

/-- A second minimal movie candidate. -/
def itemB : Item :=
  { id := "tt2", title := "B", year := none, poster := "", description := "",
    genres := [], rating := 0, type := "movie" }

/-- A candidate that duplicates the id of `itemA`. -/
def itemDup : Item :=
  { id := "tt1", title := "A2", year := none, poster := "", description := "",
    genres := [], rating := 0, type := "movie" }

/-- Witness for C1 at a concrete input: with a failing lookup, the candidate
itemB survives in the output even though the list carries a duplicated id
(tt1 twice) elsewhere — only the candidates before itemB matter, and none of
them shares its id. -/
theorem enrichKeep_order_keep_witness :
    itemB ∈ enrichKeep lkNone [itemA, itemDup, itemB] "movie" :=
  (enrichKeep_order_keep lkNone [itemA, itemDup, itemB] "movie"
      (by decide)).2.2.2 [itemA, itemDup] [] itemB rfl rfl (by decide)

/-- An injective family of identifiers. -/
def mkId (n : Nat) : String := String.mk (List.replicate n 'a')

theorem mkId_inj : Function.Injective mkId := by
  intro m n h
  have h2 : List.replicate m 'a' = List.replicate n 'a' := congrArg String.data h
  simpa using congrArg List.length h2

/-- One candidate per index, all with distinct ids. -/
def capItem (n : Nat) : Item :=
  { id := mkId n, title := "t", year := none, poster := "", description := "",
    genres := [], rating := 0, type := "movie" }

/-- 201 candidates with pairwise distinct ids. -/
def bigInput : List Item := (List.range 201).map capItem

/-- C1 counterexample: 201 candidates with distinct ids and a lookup that
always fails (so nothing may be dropped by deduplication or by the failure
rule), yet the output has only 200 elements: the 201st candidate is
discarded by the `slice(0, 200)` truncation. -/
theorem enrichKeep_trunc_cex :
    bigInput.length = 201
    ∧ (bigInput.map Item.id).Nodup
    ∧ enrichKeep lkNone bigInput "movie" = bigInput.take 200
    ∧ (enrichKeep lkNone bigInput "movie").length = 200 := by
  have hlen : bigInput.length = 201 := by simp [bigInput]
  have hnodup : (bigInput.map Item.id).Nodup := by
    have : bigInput.map Item.id = (List.range 201).map mkId := by
      simp only [bigInput, List.map_map]
      exact List.map_congr_left (fun n _ => rfl)
    rw [this]
    exact (List.nodup_range 201).map mkId_inj
  have hmapid : (bigInput.take 200).map (enrichOne lkNone "movie")
      = bigInput.take 200 := by
    have : ∀ it ∈ bigInput.take 200, enrichOne lkNone "movie" it = it := by
      intro it _
      simp [enrichOne, lkNone]
    calc (bigInput.take 200).map (enrichOne lkNone "movie")
        = (bigInput.take 200).map id := List.map_congr_left this
      _ = bigInput.take 200 := List.map_id _
  have hkeep : enrichKeep lkNone bigInput "movie" = bigInput.take 200 := by
    rw [enrichKeep, hmapid]
    apply dedupByIdGo_eq_self
    · exact ((List.take_sublist 200 bigInput).map Item.id).nodup hnodup
    · simp
  refine ⟨hlen, hnodup, hkeep, ?_⟩
  rw [hkeep]
  simp [hlen]

/-- C4: `enrichKeep` only ever processes the first 200 input candidates: the
result is unchanged when the input is pre-truncated to 200, its length never
exceeds 200, and every output element derives from one of the first 200
inputs. -/
theorem enrichKeep_cap200 (lookup : Lookup) (items : List Item)
    (hint : String) :
    enrichKeep lookup items hint = enrichKeep lookup (items.take 200) hint
    ∧ (enrichKeep lookup items hint).length ≤ 200
    ∧ ∀ x ∈ enrichKeep lookup items hint,
        ∃ it ∈ items.take 200, x = enrichOne lookup hint it := by
  refine ⟨by simp [enrichKeep, List.take_take], ?_, ?_⟩
  · have h1 := (dedupByIdGo_sublist
      ((items.take 200).map (enrichOne lookup hint)) []).length_le
    calc (enrichKeep lookup items hint).length
        ≤ ((items.take 200).map (enrichOne lookup hint)).length := h1
      _ ≤ 200 := by simp
  · intro x hx
    have hx' : x ∈ (items.take 200).map (enrichOne lookup hint) :=
      (dedupByIdGo_sublist _ _).mem hx
    obtain ⟨it, hit, rfl⟩ := List.mem_map.mp hx'
    exact ⟨it, hit, rfl⟩

/-- Witness for C4 at a concrete input. -/
theorem enrichKeep_cap200_witness :
    ∃ it ∈ [itemA].take 200, itemA = enrichOne lkNone "movie" it :=
  (enrichKeep_cap200 lkNone [itemA] "movie").2.2 itemA (by decide)

/-! ## Lemmas about the Trakt list fetch -/

/-- C2 (amended): `traktList` converts any non-success HTTP response into an
empty list without raising, but a transport failure (the `fetch` itself
rejecting) is not caught anywhere in the function and propagates to the
caller as an error. -/
theorem traktList_error_semantics :
    (∀ (t : String) (r : TraktResp), r.ok = false →
        traktList t (Except.ok r) = Except.ok [])
    ∧ (∀ t e : String, traktList t (Except.error e) = Except.error e) := by
  constructor
  · intro t r h
    simp [traktList, h]
  · intro t e
    rfl

/-- Witness for C2 at a concrete input: a 500-style non-ok response maps to
the empty list. -/
theorem traktList_error_semantics_witness :
    traktList "movies" (Except.ok { ok := false, jsonBody := Except.ok [] })
      = Except.ok ([] : List Item) :=
  traktList_error_semantics.1 "movies" _ rfl

/-- C2 counterexample: a transport failure is surfaced to the caller as an
error, not replaced by an empty sequence. -/
theorem traktList_transport_cex :
    traktList "movies" (Except.error "ECONNRESET")
      = Except.error "ECONNRESET"
    ∧ traktList "movies" (Except.error "ECONNRESET")
        ≠ Except.ok ([] : List Item) := by
  exact ⟨rfl, by simp [traktList]⟩

theorem normRow_some_ttTest {t : String} {row : RawRow} {it : Item}
    (h : normRow t row = some it) : ttTest it.id = true := by
  unfold normRow at h
  split at h
  · exact absurd h (by simp)
  · split at h
    · exact absurd h (by simp)
    · split at h
      · exact absurd h (by simp)
      · rename_i imdb heq h1 h2
        have hin := Option.some.inj h
        subst hin
        simpa using h2

/-- C10 (amended): a successful `traktList` call returns exactly the rows
surviving normalisation; every returned candidate has an id passing the
unanchored test `tt` followed by at least one digit; and a raw row whose
nested object has a missing, empty, or non-matching imdb id is silently
dropped (mapped to null and filtered), not reported as an error. -/
theorem traktList_id_format :
    (∀ (t : String) (rows : List RawRow),
        traktList t (Except.ok { ok := true, jsonBody := Except.ok rows })
          = Except.ok (rows.filterMap (normRow t)))
    ∧ (∀ (t : String) (rows : List RawRow) (it : Item),
        it ∈ rows.filterMap (normRow t) → ttTest it.id = true)
    ∧ (∀ (t : String) (row : RawRow) (s : String),
        (effObj row).imdb = some s → ttTest s = false → normRow t row = none)
    ∧ (∀ (t : String) (row : RawRow),
        (effObj row).imdb = none → normRow t row = none) := by
  refine ⟨fun t rows => rfl, ?_, ?_, ?_⟩
  · intro t rows it hit
    obtain ⟨row, _, hrow⟩ := List.mem_filterMap.mp hit
    exact normRow_some_ttTest hrow
  · intro t row s hobj hfail
    unfold normRow
    rw [hobj]
    by_cases he : s = ""
    · simp [he]
    · simp [he, hfail]
  · intro t row hobj
    unfold normRow
    rw [hobj]

/-- A well-formed raw Trakt row. -/
def goodObj : TObj := { imdb := some "tt123", title := "X", year := none }

/-- A raw row carrying `goodObj` as its movie. -/
def goodRow : RawRow := { movie := some goodObj, show_ := none, self := goodObj }

/-- The candidate `goodRow` normalises to. -/
def goodItem : Item :=
  { id := "tt123", title := "X", year := none, poster := "", description := "",
    genres := [], rating := 0, type := "movie" }

/-- Witness for C10 at a concrete input. -/
theorem traktList_id_format_witness :
    ttTest goodItem.id = true
    ∧ traktList "movies"
        (Except.ok { ok := true, jsonBody := Except.ok [goodRow] })
        = Except.ok [goodItem] := by
  refine ⟨traktList_id_format.2.1 "movies" [goodRow] goodItem (by decide), ?_⟩
  rw [traktList_id_format.1 "movies" [goodRow]]
  rfl

/-- A raw object whose imdb id has a junk suffix after the digits. -/
def oddObj : TObj := { imdb := some "tt12x", title := "Y", year := none }

/-- A raw row carrying `oddObj` as its movie. -/
def oddRow : RawRow := { movie := some oddObj, show_ := none, self := oddObj }

/-- The candidate `oddRow` normalises to. -/
def oddItem : Item :=
  { id := "tt12x", title := "Y", year := none, poster := "", description := "",
    genres := [], rating := 0, type := "movie" }

/-- C10 counterexample: the unanchored `/^tt\d+/` test admits the id tt12x,
so `traktList` returns a candidate whose id is not `tt` followed by digits
only. -/
theorem traktList_id_cex :
    traktList "movies"
        (Except.ok { ok := true, jsonBody := Except.ok [oddRow] })
      = Except.ok [oddItem]
    ∧ ttFull "tt12x" = false := by
  constructor
  · rfl
  · decide

/-! ## Lemmas about row building -/

/-- C3: when the id intersection of movies/trending and movies/popular has
fewer than 30 members the quality row is the enrichment of the full trending
pool; with 30 or more members it is exactly the enrichment of the
intersection, which lists items in trending relative order; both before the
final capacity truncation, which the row then applies. -/
theorem buildRows_quality_spec (lookup : Lookup) (tM pM tS : List Item)
    (w : Bool) :
    ((interPool tM pM).length < 30 →
        (buildRowsPools lookup tM pM tS w)[3]?
          = some { id := "quality", title := "Quality Selections",
                   items := (enrichKeep lookup tM "movie").take
                              (if w then 200 else 50) })
    ∧ (30 ≤ (interPool tM pM).length →
        (buildRowsPools lookup tM pM tS w)[3]?
            = some { id := "quality", title := "Quality Selections",
                     items := (enrichKeep lookup (interPool tM pM) "movie").take
                                (if w then 200 else 50) }
          ∧ (interPool tM pM).Sublist tM) := by
  constructor
  · intro h
    simp [buildRowsPools, qualityBase, h]
  · intro h
    have h2 : ¬ (interPool tM pM).length < 30 := not_lt.mpr h
    exact ⟨by simp [buildRowsPools, qualityBase, h2], List.filter_sublist _⟩

/-- Witness for C3 at a concrete input: a singleton trending pool with an
empty popular pool falls into the small-intersection branch. -/
theorem buildRows_quality_spec_witness :
    (interPool [itemA] ([] : List Item)).length < 30
    ∧ (buildRowsPools lkNone [itemA] [] [] false)[3]?
        = some { id := "quality", title := "Quality Selections",
                 items := (enrichKeep lkNone [itemA] "movie").take
                            (if false then 200 else 50) } :=
  ⟨by decide, (buildRows_quality_spec lkNone [itemA] [] [] false).1 (by decide)⟩

/-! ## Lemmas about re-ranking -/

theorem cosine_nil_left (b : Vec) : cosine [] b = 0 := by
  have hd : (cosAcc [] b).1
      = ((keyUnion [] b).map (fun k => lookupVec [] k * lookupVec b k)).sum := by
    rw [cosAcc_eq_sums]
  have h0 : (cosAcc [] b).1 = 0 := by
    rw [hd]
    refine List.sum_eq_zero ?_
    intro x hx
    obtain ⟨k, _, rfl⟩ := List.mem_map.mp hx
    simp [lookupVec]
  have hc : cosine [] b
      = ((cosAcc [] b).1 : ℝ)
        / (if Real.sqrt ((cosAcc [] b).2.1 : ℝ)
              * Real.sqrt ((cosAcc [] b).2.2 : ℝ) = 0
           then 1
           else Real.sqrt ((cosAcc [] b).2.1 : ℝ)
                * Real.sqrt ((cosAcc [] b).2.2 : ℝ)) := rfl
  rw [hc, h0]
  simp

theorem score_nil_simple (it : Item) (h0 : it.rating = 0)
    (hy : it.year = none) : score ([] : Vec) it = 0.3 := by
  have hs : cosine [] (tagsToVec it.genres) = 0 := cosine_nil_left _
  norm_num [score, h0, hy, hs, orZeroR]

theorem filter_insertDesc (s : ℝ) (x : Item × ℝ) (L : List (Item × ℝ)) :
    (insertDesc x L).filter (fun p => decide (p.2 = s))
      = if x.2 = s then x :: L.filter (fun p => decide (p.2 = s))
        else L.filter (fun p => decide (p.2 = s)) := by
  induction L with
  | nil =>
    simp only [insertDesc]
    by_cases hx : x.2 = s
    · simp [hx]
    · simp [hx]
  | cons y ys ih =>
    simp only [insertDesc]
    by_cases hle : y.2 ≤ x.2
    · rw [if_pos hle]
      by_cases hx : x.2 = s
      · simp [hx]
      · simp [hx]
    · rw [if_neg hle]
      have hlt : x.2 < y.2 := lt_of_not_le hle
      by_cases hy : y.2 = s
      · have hx : ¬ x.2 = s := by
          intro e
          rw [e, hy] at hlt
          exact lt_irrefl s hlt
        simp [hy, hx, ih]
      · simp [hy, ih]

theorem filter_sortDesc (s : ℝ) (L : List (Item × ℝ)) :
    (sortDesc L).filter (fun p => decide (p.2 = s))
      = L.filter (fun p => decide (p.2 = s)) := by
  induction L with
  | nil => rfl
  | cons x xs ih =>
    simp only [sortDesc, filter_insertDesc, ih, List.filter_cons]
    by_cases hx : x.2 = s
    · simp [hx]
    · simp [hx]

theorem insertDesc_perm (x : Item × ℝ) (L : List (Item × ℝ)) :
    (insertDesc x L).Perm (x :: L) := by
  induction L with
  | nil => simp [insertDesc]
  | cons y ys ih =>
    by_cases h : y.2 ≤ x.2
    · simp [insertDesc, h]
    · simp only [insertDesc, if_neg h]
      exact (ih.cons y).trans (List.Perm.swap x y ys)

theorem sortDesc_perm (L : List (Item × ℝ)) : (sortDesc L).Perm L := by
  induction L with
  | nil => simp [sortDesc]
  | cons x xs ih => exact (insertDesc_perm x (sortDesc xs)).trans (ih.cons x)

theorem map_fst_scored (v : Vec) (items : List Item) :
    (items.map (fun it => (it, score v it))).map Prod.fst = items := by
  rw [List.map_map]
  exact (List.map_congr_left (fun a _ => rfl)).trans (List.map_id' items)

/-- C7 (amended): the descending sort by score is stable: with the
diversification pass disabled, the candidates of any given score value
appear in the output exactly in their input order.  (The diversification
pass, enabled by default, can reorder equal-scored candidates of different
genre signatures; see the counterexample.) -/
theorem rerank_sort_stable (items : List Item) (v : Vec) (s : ℝ) :
    (rerank items v false).filter (fun it => decide (score v it = s))
      = items.filter (fun it => decide (score v it = s)) := by
  have hre : rerank items v false
      = (sortDesc (items.map (fun it => (it, score v it)))).map Prod.fst := by
    simp [rerank]
  have hmem : ∀ p ∈ sortDesc (items.map (fun it => (it, score v it))),
      p.2 = score v p.1 := by
    intro p hp
    have hp2 : p ∈ items.map (fun it => (it, score v it)) :=
      (sortDesc_perm _).mem_iff.mp hp
    obtain ⟨it, _, rfl⟩ := List.mem_map.mp hp2
    rfl
  rw [hre, List.filter_map]
  have h1 : (sortDesc (items.map (fun it => (it, score v it)))).filter
        ((fun it => decide (score v it = s)) ∘ Prod.fst)
      = (sortDesc (items.map (fun it => (it, score v it)))).filter
        (fun p => decide (p.2 = s)) :=
    List.filter_congr (fun p hp => by simp [Function.comp, hmem p hp])
  rw [h1, filter_sortDesc]
  have h2 : (items.map (fun it => (it, score v it))).filter
        (fun p => decide (p.2 = s))
      = (items.map (fun it => (it, score v it))).filter
        ((fun it => decide (score v it = s)) ∘ Prod.fst) :=
    List.filter_congr (fun p hp => by
      obtain ⟨it, _, rfl⟩ := List.mem_map.mp hp
      simp [Function.comp])
  rw [h2, ← List.filter_map, map_fst_scored]

/-- A candidate with genre signature g1 (first in the tie example). -/
def tieX : Item :=
  { id := "tt10", title := "X", year := none, poster := "", description := "",
    genres := ["g1"], rating := 0, type := "movie" }

/-- A candidate with genre signature g1 (second, same score as tieB). -/
def tieA : Item :=
  { id := "tt11", title := "A", year := none, poster := "", description := "",
    genres := ["g1"], rating := 0, type := "movie" }

/-- A candidate with genre signature g2, same score as tieA. -/
def tieB : Item :=
  { id := "tt12", title := "B", year := none, poster := "", description := "",
    genres := ["g2"], rating := 0, type := "movie" }

/-- C7 counterexample: with the default diversification, tieA and tieB have
equal scores and tieA precedes tieB in the input, yet the output lists tieB
before tieA: tieA repeats the genre signature of tieX and is pushed behind
the diverse head. -/
theorem rerank_tie_cex :
    score ([] : Vec) tieA = score ([] : Vec) tieB
    ∧ [tieA, tieB].Sublist [tieX, tieA, tieB]
    ∧ rerank [tieX, tieA, tieB] [] true = [tieX, tieB, tieA]
    ∧ ¬ [tieA, tieB].Sublist (rerank [tieX, tieA, tieB] [] true) := by
  have hX : score ([] : Vec) tieX = 0.3 := score_nil_simple _ rfl rfl
  have hA : score ([] : Vec) tieA = 0.3 := score_nil_simple _ rfl rfl
  have hB : score ([] : Vec) tieB = 0.3 := score_nil_simple _ rfl rfl
  have hre : rerank [tieX, tieA, tieB] [] true
      = appendMissing
          (divHead [] (sortDesc [(tieX, score ([] : Vec) tieX),
            (tieA, score ([] : Vec) tieA), (tieB, score ([] : Vec) tieB)]))
          (sortDesc [(tieX, score ([] : Vec) tieX),
            (tieA, score ([] : Vec) tieA), (tieB, score ([] : Vec) tieB)]) := rfl
  have hsorted : sortDesc [(tieX, score ([] : Vec) tieX),
        (tieA, score ([] : Vec) tieA), (tieB, score ([] : Vec) tieB)]
      = [(tieX, score ([] : Vec) tieX), (tieA, score ([] : Vec) tieA),
         (tieB, score ([] : Vec) tieB)] := by
    rw [hX, hA, hB]
    simp [sortDesc, insertDesc]
  have hval : rerank [tieX, tieA, tieB] [] true = [tieX, tieB, tieA] := by
    rw [hre, hsorted]
    rfl
  refine ⟨hA.trans hB.symm, by decide, hval, ?_⟩
  rw [hval]
  decide

theorem divHead_sublist (ps : List (Item × ℝ)) (seen : List String) :
    (divHead seen ps).Sublist (ps.map Prod.fst) := by
  induction ps generalizing seen with
  | nil => simp [divHead]
  | cons p ps ih =>
    simp only [divHead, List.map_cons]
    by_cases h : seen.contains (joinPipe p.1.genres)
    · simp only [h, if_pos rfl]
      exact (ih seen).cons _
    · simp only [h]
      simpa using (ih _).cons₂ p.1

theorem appendMissing_eq (ps : List (Item × ℝ)) (out : List Item)
    (hn : (ps.map Prod.fst).Nodup) :
    appendMissing out ps
      = out ++ (ps.map Prod.fst).filter (fun x => !out.contains x) := by
  induction ps generalizing out with
  | nil => simp [appendMissing]
  | cons p ps ih =>
    have hn2 : (ps.map Prod.fst).Nodup :=
      (List.nodup_cons.mp (by simpa using hn)).2
    have hp1 : ¬ p.1 ∈ ps.map Prod.fst :=
      (List.nodup_cons.mp (by simpa using hn)).1
    simp only [appendMissing, List.map_cons, List.filter_cons]
    by_cases h : out.contains p.1
    · simp only [h, if_pos rfl, Bool.not_true, Bool.false_eq_true, if_false]
      exact ih out hn2
    · simp only [h, Bool.not_false, if_pos rfl]
      rw [ih (out ++ [p.1]) hn2]
      have hcongr : (ps.map Prod.fst).filter (fun x => !(out ++ [p.1]).contains x)
          = (ps.map Prod.fst).filter (fun x => !out.contains x) := by
        refine List.filter_congr ?_
        intro x hx
        have hne : ¬ x = p.1 := fun e => hp1 (e ▸ hx)
        simp [h, hne]
      rw [hcongr]
      simp

theorem filter_mem_of_sublist {h l : List Item} (hs : h.Sublist l)
    (hn : l.Nodup) : l.filter (fun x => h.contains x) = h := by
  induction hs with
  | slnil => rfl
  | @cons h l a hs ih =>
    have ha : ¬ a ∈ l := (List.nodup_cons.mp hn).1
    have hah : ¬ a ∈ h := fun hm => ha (hs.mem hm)
    rw [List.filter_cons, if_neg (by simpa using hah)]
    exact ih (List.nodup_cons.mp hn).2
  | @cons₂ h l a hs ih =>
    have ha : ¬ a ∈ l := (List.nodup_cons.mp hn).1
    rw [List.filter_cons, if_pos (by simp)]
    congr 1
    have hcongr : l.filter (fun x => (a :: h).contains x)
        = l.filter (fun x => h.contains x) := by
      refine List.filter_congr ?_
      intro x hx
      have hne : ¬ x = a := fun e => ha (e ▸ hx)
      simp [hne]
    rw [hcongr]
    exact ih (List.nodup_cons.mp hn).2

/-- C8 (amended): for inputs without duplicate items (the source compares
items by object identity inside `out.includes`), `rerank` with
diversification is a permutation of `rerank` without it (and of the input),
and every input item appears exactly once in the output. -/
theorem rerank_diversify_perm (items : List Item) (v : Vec)
    (hn : items.Nodup) :
    (rerank items v true).Perm (rerank items v false)
    ∧ (rerank items v true).Perm items
    ∧ ∀ x ∈ items, (rerank items v true).count x = 1 := by
  have hre0 : rerank items v false
      = (sortDesc (items.map (fun it => (it, score v it)))).map Prod.fst := by
    simp [rerank]
  have hre1 : rerank items v true
      = appendMissing
          (divHead [] (sortDesc (items.map (fun it => (it, score v it)))))
          (sortDesc (items.map (fun it => (it, score v it)))) := by
    simp [rerank]
  have hpermItems : ((sortDesc (items.map (fun it => (it, score v it)))).map
      Prod.fst).Perm items := by
    have h1 := (sortDesc_perm (items.map (fun it => (it, score v it)))).map Prod.fst
    rw [map_fst_scored] at h1
    exact h1
  have hnody : ((sortDesc (items.map (fun it => (it, score v it)))).map
      Prod.fst).Nodup := hpermItems.symm.nodup hn
  have hsub := divHead_sublist (sortDesc (items.map (fun it => (it, score v it)))) []
  have happ := appendMissing_eq (sortDesc (items.map (fun it => (it, score v it))))
    (divHead [] (sortDesc (items.map (fun it => (it, score v it))))) hnody
  have hfilt := filter_mem_of_sublist hsub hnody
  have hperm1 : (rerank items v true).Perm
      ((sortDesc (items.map (fun it => (it, score v it)))).map Prod.fst) := by
    rw [hre1, happ]
    nth_rewrite 1 [← hfilt]
    exact List.filter_append_perm _ _
  have hperm : (rerank items v true).Perm (rerank items v false) := by
    rw [hre0]
    exact hperm1
  have hpermAll : (rerank items v true).Perm items := hperm1.trans hpermItems
  refine ⟨hperm, hpermAll, ?_⟩
  intro x hx
  rw [hpermAll.count_eq x]
  exact List.count_eq_one_of_mem hn hx

/-- Witness for C8 at a concrete input. -/
theorem rerank_diversify_perm_witness :
    (rerank [tieX] [] true).Perm (rerank [tieX] [] false)
    ∧ (rerank [tieX] [] true).Perm [tieX]
    ∧ (rerank [tieX] [] true).count tieX = 1 := by
  have h := rerank_diversify_perm [tieX] [] (by decide)
  exact ⟨h.1, h.2.1, h.2.2 tieX (by decide)⟩

/-- C8 counterexample: when the same item occurs twice in the input, the
diversified output keeps it only once (JS includes-based lookup), so it is
not a permutation of the undiversified output. -/
theorem rerank_dup_cex :
    rerank [tieX, tieX] [] true = [tieX]
    ∧ rerank [tieX, tieX] [] false = [tieX, tieX]
    ∧ ¬ (rerank [tieX, tieX] [] true).Perm (rerank [tieX, tieX] [] false) := by
  have hsorted : sortDesc [(tieX, score ([] : Vec) tieX),
        (tieX, score ([] : Vec) tieX)]
      = [(tieX, score ([] : Vec) tieX), (tieX, score ([] : Vec) tieX)] := by
    simp [sortDesc, insertDesc]
  have hre1 : rerank [tieX, tieX] [] true
      = appendMissing
          (divHead [] (sortDesc [(tieX, score ([] : Vec) tieX),
            (tieX, score ([] : Vec) tieX)]))
          (sortDesc [(tieX, score ([] : Vec) tieX),
            (tieX, score ([] : Vec) tieX)]) := rfl
  have hre0 : rerank [tieX, tieX] [] false
      = (sortDesc [(tieX, score ([] : Vec) tieX),
          (tieX, score ([] : Vec) tieX)]).map Prod.fst := rfl
  have h1 : rerank [tieX, tieX] [] true = [tieX] := by
    rw [hre1, hsorted]
    rfl
  have h0 : rerank [tieX, tieX] [] false = [tieX, tieX] := by
    rw [hre0, hsorted]
    rfl
  refine ⟨h1, h0, ?_⟩
  rw [h1, h0]
  intro hp
  simpa using hp.length_eq

/-! ## Lemmas about the TTL cache -/

theorem LruCache_set_max {V : Type} (c : LruCache V) (k : String) (v : V) :
    (c.set k v).maxEntries = c.maxEntries := rfl

theorem LruCache_get_max {V : Type} (c : LruCache V) (k : String) :
    ((c.get k).2).maxEntries = c.maxEntries := by
  unfold LruCache.get
  cases c.entries.find? (fun p => p.1 = k) <;> rfl

theorem LruCache_set_length {V : Type} (c : LruCache V) (k : String) (v : V)
    (h : c.entries.length ≤ c.maxEntries) :
    (c.set k v).entries.length ≤ c.maxEntries := by
  have hfl : (c.entries.filter (fun q => q.1 ≠ k)).length ≤ c.entries.length :=
    (List.filter_sublist _).length_le
  have hel : ((k, v) :: c.entries.filter (fun q => q.1 ≠ k)).length
      ≤ c.maxEntries + 1 := by
    simp only [List.length_cons]
    omega
  have h1 : (c.set k v).entries
      = if c.maxEntries < ((k, v) :: c.entries.filter (fun q => q.1 ≠ k)).length
        then ((k, v) :: c.entries.filter (fun q => q.1 ≠ k)).dropLast
        else (k, v) :: c.entries.filter (fun q => q.1 ≠ k) := rfl
  rw [h1]
  by_cases hcap : c.maxEntries
      < ((k, v) :: c.entries.filter (fun q => q.1 ≠ k)).length
  · rw [if_pos hcap]
    have h2 := List.length_dropLast ((k, v) :: c.entries.filter (fun q => q.1 ≠ k))
    simp only [List.length_cons] at *
    omega
  · rw [if_neg hcap]
    simp only [List.length_cons] at *
    omega

theorem LruCache_get_length {V : Type} (c : LruCache V) (k : String)
    (h : c.entries.length ≤ c.maxEntries) :
    ((c.get k).2).entries.length ≤ c.maxEntries := by
  unfold LruCache.get
  cases hf : c.entries.find? (fun p => p.1 = k) with
  | none => simpa using h
  | some p =>
    simp only
    have hmem : p ∈ c.entries := List.mem_of_find?_eq_some hf
    have hkey : p.1 = k := by simpa using List.find?_some hf
    have hlt : (c.entries.filter (fun q => q.1 ≠ k)).length
        < c.entries.length := by
      rw [List.length_filter_lt_length_iff_exists]
      exact ⟨p, hmem, by simp [hkey]⟩
    simp only [List.length_cons]
    omega

theorem runOps_invariant {V : Type} (ops : List (CacheOp V)) (c : LruCache V)
    (h : c.entries.length ≤ c.maxEntries) :
    (runOps ops c).maxEntries = c.maxEntries
    ∧ (runOps ops c).entries.length ≤ c.maxEntries := by
  induction ops generalizing c with
  | nil => exact ⟨rfl, h⟩
  | cons op ops ih =>
    cases op with
    | get k =>
      have hrun : runOps (CacheOp.get k :: ops) c = runOps ops ((c.get k).2) := rfl
      have hmax := LruCache_get_max c k
      have hlen : ((c.get k).2).entries.length ≤ ((c.get k).2).maxEntries := by
        rw [hmax]
        exact LruCache_get_length c k h
      obtain ⟨h1, h2⟩ := ih ((c.get k).2) hlen
      rw [hrun]
      exact ⟨h1.trans hmax, hmax ▸ h2⟩
    | set k v =>
      have hrun : runOps (CacheOp.set k v :: ops) c = runOps ops (c.set k v) := rfl
      have hmax := LruCache_set_max c k v
      have hlen : (c.set k v).entries.length ≤ (c.set k v).maxEntries := by
        rw [hmax]
        exact LruCache_set_length c k v h
      obtain ⟨h1, h2⟩ := ih (c.set k v) hlen
      rw [hrun]
      exact ⟨h1.trans hmax, hmax ▸ h2⟩

/-- C9: starting from the configured cache (maximum 1000 entries), no
sequence of get/set operations ever leaves more than 1000 entries; and a
set at capacity with a fresh key inserts it at the front and evicts exactly
the last (least-recently-used) entry. -/
theorem cache_lru_bound :
    (∀ (V : Type) (ops : List (CacheOp V)),
        (runOps ops (cacheInit V)).entries.length ≤ 1000)
    ∧ (∀ (V : Type) (c : LruCache V) (k : String) (v : V),
        c.entries.length = c.maxEntries → 0 < c.maxEntries →
        (∀ p ∈ c.entries, ¬ p.1 = k) →
        (c.set k v).entries.map Prod.fst
          = k :: (c.entries.map Prod.fst).dropLast) := by
  constructor
  · intro V ops
    have h := runOps_invariant ops (cacheInit V) (by simp [cacheInit])
    simpa [cacheInit] using h.2
  · intro V c k v hfull hpos hfresh
    have hfilter : c.entries.filter (fun q => q.1 ≠ k) = c.entries := by
      rw [List.filter_eq_self]
      intro p hp
      simpa using hfresh p hp
    have hcap : c.maxEntries < ((k, v) :: c.entries).length := by
      simp only [List.length_cons, hfull]
      omega
    have h1 : (c.set k v).entries
        = if c.maxEntries < ((k, v) :: c.entries.filter (fun q => q.1 ≠ k)).length
          then ((k, v) :: c.entries.filter (fun q => q.1 ≠ k)).dropLast
          else (k, v) :: c.entries.filter (fun q => q.1 ≠ k) := rfl
    have hset : (c.set k v).entries = ((k, v) :: c.entries).dropLast := by
      rw [h1, hfilter, if_pos hcap]
    obtain ⟨q, rest, hqr⟩ : ∃ q rest, c.entries = q :: rest := by
      cases he : c.entries with
      | nil => rw [he] at hfull; simp at hfull; omega
      | cons q rest => exact ⟨q, rest, rfl⟩
    rw [hset, hqr, List.dropLast_cons₂, List.map_cons, List.map_dropLast,
      List.map_cons]

/-- Witness for C9 at a concrete input: a full two-entry cache evicts the
last entry on inserting a fresh key. -/
theorem cache_lru_bound_witness :
    ((⟨2, [("a", 1), ("b", 2)]⟩ : LruCache Nat).set "c" 3).entries.map Prod.fst
      = "c" :: (([("a", (1 : Nat)), ("b", 2)].map Prod.fst).dropLast) :=
  cache_lru_bound.2 Nat ⟨2, [("a", 1), ("b", 2)]⟩ "c" 3 (by decide) (by decide)
    (by decide)

end Stremio
